import Mathlib

/-!
  # Event-commitment pipeline: Merkle engine and leaf encoder

  A shallow embedding of `src/eventapp.py`: the Merkle-tree functions
  (`pad32`, `keccak_pair`, `build_merkle_tree`, `merkle_root`, `merkle_proof`,
  `verify_proof`) and the leaf encoder (`build_event_leaf`).

  Byte strings are `List Nat`. The external Keccak-256 function (from the
  `web3` library, not part of this repository) is an explicit parameter
  `K : Bytes → Bytes`; theorems quantify over it, adding the hypothesis that
  its output is 32 bytes long where the property depends on that (true of
  Keccak-256). Python list indexing — including negative indexing and the
  `IndexError` raised out of range — is modelled by `pyGet`; uncaught Python
  exceptions are modelled with `Except PyErr`. Python `//` is `Int.fdiv`
  (floor division) and Python `%` is `Int.emod` (both agree with Python for
  a positive modulus).
-/

namespace EventApp

/-- A byte string: a list of byte values. -/
abbrev Bytes := List Nat

/-- The uncaught Python exceptions the embedded functions can raise. -/
inductive PyErr where
  /-- `raise ValueError(msg)`. -/
  | valueError (msg : String)
  /-- `IndexError: list index out of range`. -/
  | indexError
  /-- `OverflowError` from `int.to_bytes` (negative, or does not fit). -/
  | overflowError
  deriving Repr, DecidableEq

/-- Python list indexing `l[i]`: non-negative indices from the front,
negative indices from the back; `none` models the `IndexError`. -/
def pyGet (l : List α) (i : Int) : Option α :=
  if 0 ≤ i then l.get? i.toNat
  else if (-i).toNat ≤ l.length then l.get? (l.length - (-i).toNat) else none

/-- `pad32(b) = b.rjust(32, b"\x00")`: left-pad with zero bytes to length 32;
a string already 32 bytes or longer is returned unchanged. -/
def pad32 (b : Bytes) : Bytes :=
  List.replicate (32 - b.length) 0 ++ b

/-- `keccak_pair(l, r) = keccak(l + r)`, for the hash parameter `K`. -/
def keccak_pair (K : Bytes → Bytes) (l r : Bytes) : Bytes :=
  K (l ++ r)

/-- One pass of the `while` loop body in `build_merkle_tree`: pair the level
left to right (`for i in range(0, len(level), 2)`), hashing `level[i]` with
`level[i+1]`, or with itself when `i + 1` is out of range. -/
def pairUp (K : Bytes → Bytes) : List Bytes → List Bytes
  | [] => []
  | [x] => [keccak_pair K x x]
  | x :: y :: rest => keccak_pair K x y :: pairUp K rest

/-- The `while len(level) > 1` loop of `build_merkle_tree`: the list of levels
strictly above the given one, from bottom to top. -/
def buildLevels (K : Bytes → Bytes) (level : List Bytes) : List (List Bytes) :=
  if 1 < level.length then
    pairUp K level :: buildLevels K (pairUp K level)
  else []
termination_by level.length
decreasing_by
  have key : ∀ n (l : List Bytes), l.length ≤ n →
      2 * (pairUp K l).length ≤ l.length + 1 := by
    intro n
    induction n with
    | zero =>
      intro l hl
      cases l with
      | nil => simp [pairUp]
      | cons x xs => simp at hl
    | succ n ih =>
      intro l hl
      cases l with
      | nil => simp [pairUp]
      | cons x xs =>
        cases xs with
        | nil => simp [pairUp]
        | cons y rest =>
          have := ih rest (by simp [List.length_cons] at hl ⊢; omega)
          simp [pairUp, List.length_cons] at this ⊢
          omega
  have := key level.length level le_rfl
  omega

/-- `build_merkle_tree(leaves)`: raises `ValueError` on empty input, otherwise
level 0 is the padded leaves and each later level pairs the one below. -/
def build_merkle_tree (K : Bytes → Bytes) (leaves : List Bytes) :
    Except PyErr (List (List Bytes)) :=
  if leaves.isEmpty then .error (.valueError "No leaves to build a tree")
  else
    let level := leaves.map pad32
    .ok (level :: buildLevels K level)

/-- `merkle_root(tree) = tree[-1][0]`. -/
def merkle_root (tree : List (List Bytes)) : Option Bytes :=
  (pyGet tree (-1)).bind fun last => pyGet last 0

/-- Python `idx ^ 1` on an arbitrary integer: flip the low bit of the
two's-complement representation, i.e. add one to an even number and
subtract one from an odd number. -/
def pyXor1 (i : Int) : Int :=
  if Int.emod i 2 = 0 then i + 1 else i - 1

/-- One iteration of the loop in `merkle_proof`: compute `sib_idx = idx ^ 1`,
read the sibling (`level[sib_idx]` when `sib_idx < len(level)`, else
`level[idx]`), and record the position string. -/
def proofStep (level : List Bytes) (idx : Int) : Option (Bytes × String) :=
  (if pyXor1 idx < (level.length : Int) then pyGet level (pyXor1 idx)
   else pyGet level idx).map
    fun sibling => (sibling, if Int.emod idx 2 = 0 then "right" else "left")

/-- The loop of `merkle_proof` over `tree[:-1]`, halving the index with
floor division after every level. -/
def merkle_proof_go : List (List Bytes) → Int → Except PyErr (List (Bytes × String))
  | [], _ => .ok []
  | level :: rest, idx =>
    match proofStep level idx with
    | none => .error .indexError
    | some p => (merkle_proof_go rest (Int.fdiv idx 2)).map fun pf => p :: pf

/-- `merkle_proof(tree, index)`: the (sibling, position) steps collected over
every level except the last. -/
def merkle_proof (tree : List (List Bytes)) (index : Int) :
    Except PyErr (List (Bytes × String)) :=
  merkle_proof_go tree.dropLast index

/-- The folding loop of `verify_proof`: each step pads the sibling to 32 bytes
and hashes it with the running value on the recorded side ("right" puts the
sibling on the right; anything else puts it on the left). -/
def verifyFold (K : Bytes → Bytes) (proof : List (Bytes × String)) (cur : Bytes) :
    Bytes :=
  proof.foldl
    (fun c sp =>
      let sib := pad32 sp.1
      if sp.2 == "right" then keccak_pair K c sib else keccak_pair K sib c)
    cur

/-- `verify_proof(leaf, proof, root)`: fold the proof from the padded leaf and
compare the result with the root. -/
def verify_proof (K : Bytes → Bytes) (leaf : Bytes) (proof : List (Bytes × String))
    (root : Bytes) : Bool :=
  verifyFold K proof (pad32 leaf) == root

/-- A raw event log record, as `build_event_leaf` reads it: the hex-string
round-trips of the Python code (`bytes.fromhex(....hex()[2:])`) are identities
on the underlying byte strings and are dropped. -/
structure EventLog where
  transactionHash : Bytes
  logIndex : Int
  topics : List Bytes
  data : Bytes

/-- Big-endian byte encoding of a natural number in exactly `n` bytes
(the value semantics of Python `int.to_bytes(n, "big")` after its range
check). -/
def toBytesBE : Nat → Nat → Bytes
  | 0, _ => []
  | n + 1, v => toBytesBE n (v / 256) ++ [v % 256]

/-- Python `i.to_bytes(8, "big")`: `OverflowError` when `i` is negative or
does not fit in 8 bytes, else the 8-byte big-endian encoding. -/
def int_to_bytes8 (i : Int) : Except PyErr Bytes :=
  if 0 ≤ i ∧ i < (2 : Int) ^ 64 then .ok (toBytesBE 8 i.toNat)
  else .error .overflowError

/-- `build_event_leaf(log)`: hash the
`txHash || logIndex.to_bytes(8,"big") || topics[0] || keccak(data)` payload.
No field length is checked; `topics[0]` can raise `IndexError` and
`to_bytes` can raise `OverflowError`. -/
def build_event_leaf (K : Bytes → Bytes) (log : EventLog) : Except PyErr Bytes :=
  let txh := log.transactionHash
  let log_index := log.logIndex
  match pyGet log.topics 0 with
  | none => .error .indexError
  | some topic0 =>
    let data_hash := K log.data
    match int_to_bytes8 log_index with
    | .error e => .error e
    | .ok ib => .ok (K (txh ++ ib ++ topic0 ++ data_hash))

/-- An executable stand-in for the external Keccak-256 function, used only to
evaluate the (hash-generic) theorems on concrete inputs: it returns 32 bytes
like Keccak-256 but is not cryptographic. -/
def hashStub (b : Bytes) : Bytes :=
  List.replicate 31 0 ++ [(b.foldl (fun a x => (a * 131 + x + 17) % 251) (b.length % 251)) % 256]

/-- The root value of the tree grown from a level: the head of the last level.
Proof device for relating `merkle_root` to the construction. -/
def rootAux (K : Bytes → Bytes) (lvl : List Bytes) : Bytes :=
  ((lvl :: buildLevels K lvl).getLastD []).headD []

/-- Concrete 32-byte leaves used to evaluate the theorems on closed inputs. -/
def a32 : Bytes := List.replicate 32 0

/-- A second concrete 32-byte leaf. -/
def b32 : Bytes := 1 :: List.replicate 31 0

/-- A third concrete 32-byte leaf. -/
def c32 : Bytes := 2 :: List.replicate 31 0

/-- A fourth concrete 32-byte leaf. -/
def d32 : Bytes := List.replicate 32 3

/-- A concrete 33-byte leaf, longer than the 32-byte leaf shape. -/
def b33 : Bytes := List.replicate 33 5

theorem pad32_of_le {b : Bytes} (h : 32 ≤ b.length) : pad32 b = b := by
  simp [pad32, Nat.sub_eq_zero_of_le h]

theorem pad32_length (b : Bytes) : 32 ≤ (pad32 b).length := by
  simp [pad32]; omega

theorem pad32_idem (b : Bytes) : pad32 (pad32 b) = pad32 b :=
  pad32_of_le (pad32_length b)

theorem hashStub_length (b : Bytes) : (hashStub b).length = 32 := by
  simp [hashStub]

theorem pyGet_ofNat (l : List α) (n : Nat) : pyGet l (n : Int) = l.get? n := by
  rw [pyGet, if_pos (by exact_mod_cast Nat.zero_le n), Int.toNat_ofNat]

theorem pyGet_neg_one (l : List α) (h : l ≠ []) : pyGet l (-1) = l.getLast? := by
  have h1 : 1 ≤ l.length := List.length_pos.mpr h
  rw [List.getLast?_eq_getElem?, ← List.get?_eq_getElem?, pyGet, if_neg (by decide),
    if_pos (by norm_num; omega)]
  norm_num

theorem pairUp_length (K : Bytes → Bytes) :
    ∀ l : List Bytes, (pairUp K l).length = (l.length + 1) / 2
  | [] => rfl
  | [_] => by simp [pairUp]
  | _ :: _ :: rest => by
    simp only [pairUp, List.length_cons, pairUp_length K rest]
    omega

theorem pairUp_ne_nil (K : Bytes → Bytes) {l : List Bytes} (h : l ≠ []) :
    pairUp K l ≠ [] := by
  cases l with
  | nil => exact absurd rfl h
  | cons x xs => cases xs <;> simp [pairUp]

theorem mem_pairUp (K : Bytes → Bytes) :
    ∀ (l : List Bytes) (x : Bytes), x ∈ pairUp K l → ∃ y, x = K y
  | [], x, hx => by simp [pairUp] at hx
  | [a], x, hx => by
    simp [pairUp, keccak_pair] at hx
    exact ⟨_, hx⟩
  | a :: b :: rest, x, hx => by
    simp only [pairUp, keccak_pair, List.mem_cons] at hx
    rcases hx with h | h
    · exact ⟨_, h⟩
    · exact mem_pairUp K rest x h

theorem buildLevels_eq (K : Bytes → Bytes) (l : List Bytes) :
    buildLevels K l =
      if 1 < l.length then pairUp K l :: buildLevels K (pairUp K l) else [] := by
  rw [buildLevels]

theorem buildLevels_low (K : Bytes → Bytes) {l : List Bytes} (h : ¬ 1 < l.length) :
    buildLevels K l = [] := by
  rw [buildLevels_eq, if_neg h]

theorem buildLevels_high (K : Bytes → Bytes) {l : List Bytes} (h : 1 < l.length) :
    buildLevels K l = pairUp K l :: buildLevels K (pairUp K l) := by
  rw [buildLevels_eq, if_pos h]

theorem rootAux_low (K : Bytes → Bytes) {l : List Bytes} (h : ¬ 1 < l.length) :
    rootAux K l = l.headD [] := by
  rw [rootAux, buildLevels_low K h]
  simp

theorem rootAux_high (K : Bytes → Bytes) {l : List Bytes} (h : 1 < l.length) :
    rootAux K l = rootAux K (pairUp K l) := by
  rw [rootAux, rootAux, buildLevels_high K h]
  simp [List.getLastD_cons]

theorem pairUp_get? (K : Bytes → Bytes) :
    ∀ (l : List Bytes) (k : Nat) (a : Bytes), l.get? (2 * k) = some a →
      (pairUp K l).get? k = some (K (a ++ (l.get? (2 * k + 1)).getD a))
  | [], k, a, h => by simp at h
  | [x], k, a, h => by
    match k with
    | 0 =>
      simp at h
      subst h
      simp [pairUp, keccak_pair]
    | k + 1 =>
      rw [show 2 * (k + 1) = (2 * k + 1) + 1 by ring] at h
      simp at h
  | x :: y :: rest, k, a, h => by
    match k with
    | 0 =>
      simp at h
      subst h
      simp [pairUp, keccak_pair]
    | k + 1 =>
      have h2 : (x :: y :: rest).get? (2 * (k + 1)) = rest.get? (2 * k) := by
        rw [show 2 * (k + 1) = 2 * k + 1 + 1 by ring]
        simp
      have h3 : (x :: y :: rest).get? (2 * (k + 1) + 1) = rest.get? (2 * k + 1) := by
        rw [show 2 * (k + 1) + 1 = (2 * k + 1) + 1 + 1 by ring]
        simp
      rw [h2] at h
      have IH := pairUp_get? K rest k a h
      simp only [pairUp, List.get?_cons_succ, h3]
      exact IH

theorem emod_ofNat (n : Nat) : Int.emod (n : Int) 2 = ((n % 2 : Nat) : Int) := by
  rw [Int.ofNat_emod]; rfl

theorem fdiv_ofNat (n : Nat) : Int.fdiv (n : Int) 2 = ((n / 2 : Nat) : Int) :=
  (Int.ofNat_fdiv n 2).symm

theorem proofStep_even (lvl : List Bytes) (idx : Nat) (he : idx % 2 = 0)
    (cur : Bytes) (hc : lvl.get? idx = some cur) :
    proofStep lvl (idx : Int) = some ((lvl.get? (idx + 1)).getD cur, "right") := by
  have hidx : idx < lvl.length := (List.get?_eq_some.mp hc).1
  have hm : Int.emod (idx : Int) 2 = 0 := by rw [emod_ofNat, he]; rfl
  have hx : pyXor1 (idx : Int) = ((idx + 1 : Nat) : Int) := by
    rw [pyXor1, if_pos hm]
    push_cast
    ring
  rw [proofStep, hx]
  by_cases hb : idx + 1 < lvl.length
  · rw [if_pos (show ((idx + 1 : Nat) : Int) < (lvl.length : Int) by exact_mod_cast hb),
      pyGet_ofNat, List.get?_eq_get hb, Option.map_some', hm]
    norm_num
  · rw [if_neg (show ¬ ((idx + 1 : Nat) : Int) < (lvl.length : Int) by exact_mod_cast hb),
      pyGet_ofNat, hc, Option.map_some', hm,
      List.get?_eq_none.mpr (show lvl.length ≤ idx + 1 by omega)]
    norm_num

theorem proofStep_odd (lvl : List Bytes) (idx : Nat) (ho : idx % 2 = 1)
    (hidx : idx < lvl.length) :
    ∃ sib, lvl.get? (idx - 1) = some sib ∧
      proofStep lvl (idx : Int) = some (sib, "left") := by
  have h1 : 1 ≤ idx := by omega
  have hsm : idx - 1 < lvl.length := by omega
  refine ⟨lvl.get ⟨idx - 1, hsm⟩, List.get?_eq_get hsm, ?_⟩
  have hm : Int.emod (idx : Int) 2 = 1 := by rw [emod_ofNat, ho]; rfl
  have hx : pyXor1 (idx : Int) = ((idx - 1 : Nat) : Int) := by
    rw [pyXor1, if_neg (by rw [hm]; decide)]
    push_cast [h1]
    ring
  rw [proofStep, hx,
    if_pos (show ((idx - 1 : Nat) : Int) < (lvl.length : Int) by exact_mod_cast hsm),
    pyGet_ofNat, List.get?_eq_get hsm, Option.map_some', hm]
  norm_num

theorem levels_getLast (K : Bytes → Bytes) (lvl : List Bytes) (h : lvl ≠ []) :
    (lvl :: buildLevels K lvl).getLast? = some [rootAux K lvl] := by
  by_cases h1 : 1 < lvl.length
  · rw [buildLevels_high K h1, rootAux_high K h1, List.getLast?_cons_cons]
    exact levels_getLast K (pairUp K lvl) (pairUp_ne_nil K h)
  · have hl1 : lvl.length = 1 := by
      have := List.length_pos.mpr h
      omega
    obtain ⟨a, rfl⟩ := List.length_eq_one.mp hl1
    rw [buildLevels_low K h1, rootAux_low K h1]
    rfl
termination_by lvl.length
decreasing_by simp only [pairUp_length]; omega

theorem merkle_root_levels (K : Bytes → Bytes) (lvl : List Bytes) (h : lvl ≠ []) :
    merkle_root (lvl :: buildLevels K lvl) = some (rootAux K lvl) := by
  rw [merkle_root, pyGet_neg_one _ (List.cons_ne_nil _ _), levels_getLast K lvl h]
  rfl

theorem merkle_chain (K : Bytes → Bytes) (hK : ∀ b, (K b).length = 32)
    (lvl : List Bytes) (hw : ∀ b ∈ lvl, 32 ≤ b.length)
    (idx : Nat) (cur : Bytes) (hcur : lvl.get? idx = some cur) :
    ∃ pf, merkle_proof_go (lvl :: buildLevels K lvl).dropLast (idx : Int) = .ok pf ∧
      verifyFold K pf cur = rootAux K lvl := by
  have hidx : idx < lvl.length := (List.get?_eq_some.mp hcur).1
  have hw2 : ∀ b ∈ pairUp K lvl, 32 ≤ b.length := by
    intro b hb
    obtain ⟨y, rfl⟩ := mem_pairUp K lvl b hb
    exact le_of_eq (hK y).symm
  by_cases h1 : 1 < lvl.length
  · rw [buildLevels_high K h1]
    have hk2 : idx / 2 < (pairUp K lvl).length := by
      rw [pairUp_length]
      omega
    rcases Nat.mod_two_eq_zero_or_one idx with hpar | hpar
    · -- even index: sibling is the right operand
      have hstep := proofStep_even lvl idx hpar cur hcur
      set sib := (lvl.get? (idx + 1)).getD cur with hsibdef
      have hsmem : sib ∈ lvl := by
        rw [hsibdef]
        cases hgot : lvl.get? (idx + 1) with
        | none => simpa using List.get?_mem hcur
        | some b => simpa [hgot] using List.get?_mem hgot
      have hparent : (pairUp K lvl).get? (idx / 2) = some (K (cur ++ sib)) := by
        have h2k : lvl.get? (2 * (idx / 2)) = some cur := by
          rw [show 2 * (idx / 2) = idx by omega]
          exact hcur
        have := pairUp_get? K lvl (idx / 2) cur h2k
        rwa [show 2 * (idx / 2) + 1 = idx + 1 by omega] at this
      obtain ⟨pf', hgo', hfold'⟩ :=
        merkle_chain K hK (pairUp K lvl) hw2 (idx / 2) (K (cur ++ sib)) hparent
      refine ⟨(sib, "right") :: pf', ?_, ?_⟩
      · show merkle_proof_go (lvl :: (pairUp K lvl :: buildLevels K (pairUp K lvl)).dropLast)
            (idx : Int) = _
        rw [merkle_proof_go, hstep]
        show Except.map _ (merkle_proof_go
          (pairUp K lvl :: buildLevels K (pairUp K lvl)).dropLast ((idx : Int).fdiv 2)) = _
        rw [fdiv_ofNat, hgo']
        rfl
      · rw [verifyFold, List.foldl_cons]
        have : (if "right" == "right" then keccak_pair K cur (pad32 sib)
            else keccak_pair K (pad32 sib) cur) = K (cur ++ sib) := by
          rw [if_pos (by decide), pad32_of_le (hw sib hsmem), keccak_pair]
        rw [this]
        rw [verifyFold] at hfold'
        rw [hfold', rootAux_high K h1]
    · -- odd index: sibling is the left operand
      obtain ⟨sib, hsib, hstep⟩ := proofStep_odd lvl idx hpar hidx
      have hsmem : sib ∈ lvl := List.get?_mem hsib
      have hparent : (pairUp K lvl).get? (idx / 2) = some (K (sib ++ cur)) := by
        have h2k : lvl.get? (2 * (idx / 2)) = some sib := by
          rw [show 2 * (idx / 2) = idx - 1 by omega]
          exact hsib
        have := pairUp_get? K lvl (idx / 2) sib h2k
        rw [show 2 * (idx / 2) + 1 = idx by omega] at this
        rwa [hcur] at this
      obtain ⟨pf', hgo', hfold'⟩ :=
        merkle_chain K hK (pairUp K lvl) hw2 (idx / 2) (K (sib ++ cur)) hparent
      refine ⟨(sib, "left") :: pf', ?_, ?_⟩
      · show merkle_proof_go (lvl :: (pairUp K lvl :: buildLevels K (pairUp K lvl)).dropLast)
            (idx : Int) = _
        rw [merkle_proof_go, hstep]
        show Except.map _ (merkle_proof_go
          (pairUp K lvl :: buildLevels K (pairUp K lvl)).dropLast ((idx : Int).fdiv 2)) = _
        rw [fdiv_ofNat, hgo']
        rfl
      · rw [verifyFold, List.foldl_cons]
        have : (if "left" == "right" then keccak_pair K cur (pad32 sib)
            else keccak_pair K (pad32 sib) cur) = K (sib ++ cur) := by
          rw [if_neg (by decide), pad32_of_le (hw sib hsmem), keccak_pair]
        rw [this]
        rw [verifyFold] at hfold'
        rw [hfold', rootAux_high K h1]
  · refine ⟨[], ?_, ?_⟩
    · rw [buildLevels_low K h1]
      rfl
    · have hl1 : lvl.length = 1 := by omega
      obtain ⟨a, rfl⟩ := List.length_eq_one.mp hl1
      have : idx = 0 := by omega
      subst this
      rw [List.get?_cons_zero] at hcur
      injection hcur with hcur
      rw [rootAux_low K h1, verifyFold]
      simpa using hcur.symm
termination_by lvl.length
decreasing_by all_goals simp only [pairUp_length]; omega

theorem merkle_proof_go_ok (K : Bytes → Bytes) (lvl : List Bytes)
    (idx : Nat) (hidx : idx < lvl.length) :
    ∃ pf, merkle_proof_go (lvl :: buildLevels K lvl).dropLast (idx : Int) = .ok pf ∧
      pf.length = (buildLevels K lvl).length := by
  by_cases h1 : 1 < lvl.length
  · rw [buildLevels_high K h1]
    have hk2 : idx / 2 < (pairUp K lvl).length := by
      rw [pairUp_length]
      omega
    obtain ⟨pf', hgo', hlen'⟩ := merkle_proof_go_ok K (pairUp K lvl) (idx / 2) hk2
    have hcur : lvl.get? idx = some (lvl.get ⟨idx, hidx⟩) := List.get?_eq_get hidx
    have hstep : ∃ p, proofStep lvl (idx : Int) = some p := by
      rcases Nat.mod_two_eq_zero_or_one idx with hpar | hpar
      · exact ⟨_, proofStep_even lvl idx hpar _ hcur⟩
      · obtain ⟨sib, _, hs⟩ := proofStep_odd lvl idx hpar hidx
        exact ⟨_, hs⟩
    obtain ⟨p, hp⟩ := hstep
    refine ⟨p :: pf', ?_, ?_⟩
    · show merkle_proof_go (lvl :: (pairUp K lvl :: buildLevels K (pairUp K lvl)).dropLast)
          (idx : Int) = _
      rw [merkle_proof_go, hp]
      show Except.map _ (merkle_proof_go
        (pairUp K lvl :: buildLevels K (pairUp K lvl)).dropLast ((idx : Int).fdiv 2)) = _
      rw [fdiv_ofNat, hgo']
      rfl
    · simp [hlen', buildLevels_high K h1]
  · rw [buildLevels_low K h1]
    exact ⟨[], rfl, rfl⟩
termination_by lvl.length
decreasing_by simp only [pairUp_length]; omega

theorem merkle_proof_go_neg_one (K : Bytes → Bytes) (lvl : List Bytes) (h : lvl ≠ []) :
    ∃ pf, merkle_proof_go (lvl :: buildLevels K lvl).dropLast (-1 : Int) = .ok pf := by
  by_cases h1 : 1 < lvl.length
  · rw [buildLevels_high K h1]
    obtain ⟨pf', hgo'⟩ := merkle_proof_go_neg_one K (pairUp K lvl) (pairUp_ne_nil K h)
    have hget : lvl.get? (lvl.length - 2) =
        some (lvl.get ⟨lvl.length - 2, by omega⟩) := List.get?_eq_get (by omega)
    have hstep : proofStep lvl (-1 : Int) =
        some (lvl.get ⟨lvl.length - 2, by omega⟩, "left") := by
      have hx : pyXor1 (-1 : Int) = -2 := by decide
      rw [proofStep, hx,
        if_pos (show (-2 : Int) < (lvl.length : Int) by
          have : (0 : Int) ≤ (lvl.length : Int) := by exact_mod_cast Nat.zero_le _
          omega)]
      have hpy : pyGet lvl (-2 : Int) = lvl.get? (lvl.length - 2) := by
        rw [pyGet, if_neg (by decide), if_pos (by norm_num; omega)]
        norm_num
        rfl
      rw [hpy, hget, Option.map_some']
      rfl
    refine ⟨(lvl.get ⟨lvl.length - 2, by omega⟩, "left") :: pf', ?_⟩
    show merkle_proof_go (lvl :: (pairUp K lvl :: buildLevels K (pairUp K lvl)).dropLast)
        (-1 : Int) = _
    rw [merkle_proof_go, hstep]
    show Except.map _ (merkle_proof_go
      (pairUp K lvl :: buildLevels K (pairUp K lvl)).dropLast ((-1 : Int).fdiv 2)) = _
    rw [show ((-1 : Int).fdiv 2) = -1 by decide, hgo']
    rfl
  · rw [buildLevels_low K h1]
    exact ⟨[], rfl⟩
termination_by lvl.length
decreasing_by simp only [pairUp_length]; omega

theorem levels_len_chain (K : Bytes → Bytes) (lvl : List Bytes) :
    ∀ (i : Nat) (l1 l2 : List Bytes),
      (lvl :: buildLevels K lvl).get? i = some l1 →
      (lvl :: buildLevels K lvl).get? (i + 1) = some l2 →
      l2.length = (l1.length + 1) / 2 := by
  by_cases h1 : 1 < lvl.length
  · rw [buildLevels_high K h1]
    intro i l1 l2 ha hb
    match i with
    | 0 =>
      rw [List.get?_cons_zero] at ha
      injection ha with ha
      rw [List.get?_cons_succ, List.get?_cons_zero] at hb
      injection hb with hb
      rw [← ha, ← hb, pairUp_length]
    | i + 1 =>
      rw [List.get?_cons_succ] at ha hb
      exact levels_len_chain K (pairUp K lvl) i l1 l2 ha hb
  · rw [buildLevels_low K h1]
    intro i l1 l2 ha hb
    match i with
    | 0 => simp at hb
    | i + 1 => simp at ha
termination_by lvl.length
decreasing_by simp only [pairUp_length]; omega

theorem toBytesBE_length : ∀ (n v : Nat), (toBytesBE n v).length = n
  | 0, _ => rfl
  | n + 1, v => by simp [toBytesBE, toBytesBE_length n]

theorem toBytesBE_foldl : ∀ (n v : Nat), v < 256 ^ n →
    (toBytesBE n v).foldl (fun a b => 256 * a + b) 0 = v
  | 0, v, h => by
    simp [toBytesBE]
    omega
  | n + 1, v, h => by
    have hv : v / 256 < 256 ^ n := by
      rw [Nat.div_lt_iff_lt_mul (by norm_num)]
      calc v < 256 ^ (n + 1) := h
        _ = 256 ^ n * 256 := by ring
    rw [toBytesBE, List.foldl_append, toBytesBE_foldl n (v / 256) hv]
    simp
    omega

theorem levels_ne_nil (K : Bytes → Bytes) (lvl : List Bytes) (h : lvl ≠ []) :
    ∀ l ∈ lvl :: buildLevels K lvl, l ≠ [] := by
  by_cases h1 : 1 < lvl.length
  · rw [buildLevels_high K h1]
    intro l hl
    rcases List.mem_cons.mp hl with rfl | hl'
    · exact h
    · exact levels_ne_nil K (pairUp K lvl) (pairUp_ne_nil K h) l hl'
  · rw [buildLevels_low K h1]
    intro l hl
    rcases List.mem_cons.mp hl with rfl | hl'
    · exact h
    · simp at hl'
termination_by lvl.length
decreasing_by simp only [pairUp_length]; omega

theorem build_merkle_tree_ok (K : Bytes → Bytes) (L : List Bytes) (hL : L ≠ []) :
    build_merkle_tree K L = .ok (L.map pad32 :: buildLevels K (L.map pad32)) := by
  rw [build_merkle_tree,
    if_neg (show ¬ (L.isEmpty = true) by simpa [List.isEmpty_iff] using hL)]

/-- C1: Round-trip inclusion. For every hash function returning 32 bytes, every
non-empty sequence `L` of 32-byte leaves and every index `i < length L`, the
proof derived by `merkle_proof` from `build_merkle_tree L` at `i`, together
with `merkle_root`, makes `verify_proof` accept leaf `L[i]`. -/
theorem round_trip_inclusion (K : Bytes → Bytes) (hK : ∀ b, (K b).length = 32)
    (L : List Bytes) (hL : L ≠ []) (_h32 : ∀ b ∈ L, b.length = 32)
    (i : Nat) (hi : i < L.length) :
    ∃ tree pf root,
      build_merkle_tree K L = .ok tree ∧
      merkle_proof tree (i : Int) = .ok pf ∧
      merkle_root tree = some root ∧
      verify_proof K (L.get ⟨i, hi⟩) pf root = true := by
  have hmapne : L.map pad32 ≠ [] := by simpa using hL
  have hw : ∀ b ∈ L.map pad32, 32 ≤ b.length := by
    intro b hb
    obtain ⟨a, _, rfl⟩ := List.mem_map.mp hb
    exact pad32_length a
  have hcur : (L.map pad32).get? i = some (pad32 (L.get ⟨i, hi⟩)) := by
    rw [List.get?_eq_getElem?, List.getElem?_map, ← List.get?_eq_getElem?,
      List.get?_eq_get hi]
    rfl
  obtain ⟨pf, hgo, hfold⟩ := merkle_chain K hK (L.map pad32) hw i _ hcur
  refine ⟨_, pf, _, build_merkle_tree_ok K L hL, hgo,
    merkle_root_levels K (L.map pad32) hmapne, ?_⟩
  rw [verify_proof, hfold]
  exact beq_self_eq_true _

/-- C1 witness: the round trip evaluated on the concrete three-leaf sequence
`[a32, b32, c32]` at index 1 with the concrete stand-in hash. -/
theorem round_trip_inclusion_witness :
    ∃ tree pf root,
      build_merkle_tree hashStub [a32, b32, c32] = .ok tree ∧
      merkle_proof tree (1 : Int) = .ok pf ∧
      merkle_root tree = some root ∧
      verify_proof hashStub b32 pf root = true :=
  round_trip_inclusion hashStub hashStub_length [a32, b32, c32]
    (by decide) (by decide) 1 (by decide)

/-- C2: Duplicate-last pairing on three leaves. For three distinct 32-byte
leaves `A, B, C`, the tree is
`[[A,B,C], [K(A++B), K(C++C)], [K(K(A++B) ++ K(C++C))]]` — level 1 pairs the
lone `C` with itself — and the proof at index 2 is exactly
`[(C, "right"), (K(A++B), "left")]`. -/
theorem three_leaf_shape (K : Bytes → Bytes) (A B C : Bytes)
    (hA : A.length = 32) (hB : B.length = 32) (hC : C.length = 32)
    (_hAB : A ≠ B) (_hAC : A ≠ C) (_hBC : B ≠ C) :
    build_merkle_tree K [A, B, C] =
      .ok [[A, B, C], [K (A ++ B), K (C ++ C)], [K (K (A ++ B) ++ K (C ++ C))]] ∧
    merkle_proof [[A, B, C], [K (A ++ B), K (C ++ C)], [K (K (A ++ B) ++ K (C ++ C))]]
        (2 : Int) = .ok [(C, "right"), (K (A ++ B), "left")] := by
  have hp1 : pairUp K [A, B, C] = [K (A ++ B), K (C ++ C)] := by
    simp [pairUp, keccak_pair]
  have hp2 : pairUp K [K (A ++ B), K (C ++ C)] = [K (K (A ++ B) ++ K (C ++ C))] := by
    simp [pairUp, keccak_pair]
  constructor
  · rw [build_merkle_tree_ok K [A, B, C] (by simp)]
    rw [show [A, B, C].map pad32 = [A, B, C] by
      simp [pad32_of_le (le_of_eq hA.symm), pad32_of_le (le_of_eq hB.symm),
        pad32_of_le (le_of_eq hC.symm)]]
    rw [buildLevels_high K (by simp), hp1, buildLevels_high K (by simp), hp2,
      buildLevels_low K (by simp)]
  · have hs1 : proofStep [A, B, C] (2 : Int) = some (C, "right") := by
      rw [proofStep, show pyXor1 (2 : Int) = 3 by decide,
        if_pos (show Int.emod (2 : Int) 2 = 0 by decide),
        if_neg (show ¬ (3 : Int) < ([A, B, C].length : Int) by norm_num),
        show pyGet [A, B, C] (2 : Int) = some C from rfl, Option.map_some']
    have hs2 : proofStep [K (A ++ B), K (C ++ C)] (1 : Int) =
        some (K (A ++ B), "left") := by
      rw [proofStep, show pyXor1 (1 : Int) = 0 by decide,
        if_neg (show ¬ Int.emod (1 : Int) 2 = 0 by decide),
        if_pos (show (0 : Int) < ([K (A ++ B), K (C ++ C)].length : Int) by norm_num),
        show pyGet [K (A ++ B), K (C ++ C)] (0 : Int) = some (K (A ++ B)) from rfl,
        Option.map_some']
    rw [merkle_proof]
    show merkle_proof_go [[A, B, C], [K (A ++ B), K (C ++ C)]] (2 : Int) = _
    rw [merkle_proof_go, hs1]
    show Except.map _ (merkle_proof_go [[K (A ++ B), K (C ++ C)]] ((2 : Int).fdiv 2)) = _
    rw [show (2 : Int).fdiv 2 = 1 by decide, merkle_proof_go, hs2]
    rfl

/-- C2 witness: the three-leaf tree and index-2 proof evaluated on concrete
distinct 32-byte leaves with the concrete stand-in hash. -/
theorem three_leaf_shape_witness :
    build_merkle_tree hashStub [a32, b32, c32] =
      .ok [[a32, b32, c32], [hashStub (a32 ++ b32), hashStub (c32 ++ c32)],
           [hashStub (hashStub (a32 ++ b32) ++ hashStub (c32 ++ c32))]] ∧
    merkle_proof [[a32, b32, c32], [hashStub (a32 ++ b32), hashStub (c32 ++ c32)],
           [hashStub (hashStub (a32 ++ b32) ++ hashStub (c32 ++ c32))]]
        (2 : Int) = .ok [(c32, "right"), (hashStub (a32 ++ b32), "left")] :=
  three_leaf_shape hashStub a32 b32 c32 (by decide) (by decide) (by decide)
    (by decide) (by decide) (by decide)

/-- C3 (amended): `merkle_proof` performs no bounds check. On a tree built
from `n` leaves, index `n` raises the uncaught Python `IndexError` only when
`n` is even (the fallback lookup `level[idx]` is out of range); when `n` is
odd the call returns a proof, and index `-1` always returns a proof through
Python negative indexing. -/
theorem merkle_proof_unchecked_index (K : Bytes → Bytes) (L : List Bytes)
    (hL : L ≠ []) (tree : List (List Bytes))
    (ht : build_merkle_tree K L = .ok tree) :
    (L.length % 2 = 0 → merkle_proof tree (L.length : Int) = .error .indexError) ∧
    (L.length % 2 = 1 → ∃ pf, merkle_proof tree (L.length : Int) = .ok pf) ∧
    (∃ pf, merkle_proof tree (-1 : Int) = .ok pf) := by
  rw [build_merkle_tree_ok K L hL] at ht
  injection ht with ht
  subst ht
  have hlen : (L.map pad32).length = L.length := List.length_map L pad32
  have hmapne : L.map pad32 ≠ [] := by simpa using hL
  refine ⟨?_, ?_, ?_⟩
  · intro he
    have h2 : 2 ≤ L.length := by
      have := List.length_pos.mpr hL
      omega
    have h1 : 1 < (L.map pad32).length := by omega
    have hstep : proofStep (L.map pad32) (L.length : Int) = none := by
      have hm : Int.emod (L.length : Int) 2 = 0 := by
        rw [emod_ofNat, he]
        rfl
      have hx : pyXor1 (L.length : Int) = ((L.length + 1 : Nat) : Int) := by
        rw [pyXor1, if_pos hm]
        push_cast
        ring
      rw [proofStep, hx,
        if_neg (show ¬ ((L.length + 1 : Nat) : Int) < ((L.map pad32).length : Int) by
          rw [hlen]; push_cast; omega),
        pyGet_ofNat, List.get?_eq_none.mpr (by omega)]
      rfl
    rw [merkle_proof, buildLevels_high K h1]
    show merkle_proof_go ((L.map pad32) ::
      (pairUp K (L.map pad32) :: buildLevels K (pairUp K (L.map pad32))).dropLast)
      (L.length : Int) = _
    rw [merkle_proof_go, hstep]
  · intro ho
    by_cases h1 : 1 < (L.map pad32).length
    · have h3 : 3 ≤ L.length := by omega
      have hsm : L.length - 1 < (L.map pad32).length := by omega
      have hstep : proofStep (L.map pad32) (L.length : Int) =
          some ((L.map pad32).get ⟨L.length - 1, hsm⟩, "left") := by
        have hm : Int.emod (L.length : Int) 2 = 1 := by
          rw [emod_ofNat, ho]
          rfl
        have hx : pyXor1 (L.length : Int) = ((L.length - 1 : Nat) : Int) := by
          rw [pyXor1, if_neg (by rw [hm]; decide)]
          push_cast [show 1 ≤ L.length by omega]
          ring
        rw [proofStep, hx,
          if_pos (show ((L.length - 1 : Nat) : Int) < ((L.map pad32).length : Int) by
            rw [hlen]; omega),
          pyGet_ofNat, List.get?_eq_get hsm, Option.map_some', hm]
        norm_num
      have hk2 : L.length / 2 < (pairUp K (L.map pad32)).length := by
        rw [pairUp_length, hlen]
        omega
      obtain ⟨pf', hgo', _⟩ := merkle_proof_go_ok K (pairUp K (L.map pad32))
        (L.length / 2) hk2
      refine ⟨((L.map pad32).get ⟨L.length - 1, hsm⟩, "left") :: pf', ?_⟩
      rw [merkle_proof, buildLevels_high K h1]
      show merkle_proof_go ((L.map pad32) ::
        (pairUp K (L.map pad32) :: buildLevels K (pairUp K (L.map pad32))).dropLast)
        (L.length : Int) = _
      rw [merkle_proof_go, hstep]
      show Except.map _ (merkle_proof_go
        (pairUp K (L.map pad32) :: buildLevels K (pairUp K (L.map pad32))).dropLast
        ((L.length : Int).fdiv 2)) = _
      rw [fdiv_ofNat, hgo']
      rfl
    · refine ⟨[], ?_⟩
      rw [merkle_proof, buildLevels_low K h1]
      rfl
  · obtain ⟨pf, hgo⟩ := merkle_proof_go_neg_one K (L.map pad32) hmapne
    exact ⟨pf, hgo⟩

/-- C3 witness: on the single-leaf tree over `d32`, index 1 (= leaf count,
odd) and index -1 both return the empty proof rather than failing. -/
theorem merkle_proof_unchecked_index_witness :
    (([d32] : List Bytes).length % 2 = 1 →
      ∃ pf, merkle_proof [[d32]] (([d32] : List Bytes).length : Int) = .ok pf) ∧
    (∃ pf, merkle_proof [[d32]] (-1 : Int) = .ok pf) :=
  ⟨(merkle_proof_unchecked_index hashStub [d32] (by decide) [[d32]]
      (by rw [build_merkle_tree_ok hashStub [d32] (by decide),
              show [d32].map pad32 = [d32] by decide,
              buildLevels_low hashStub (by decide)])).2.1,
   (merkle_proof_unchecked_index hashStub [d32] (by decide) [[d32]]
      (by rw [build_merkle_tree_ok hashStub [d32] (by decide),
              show [d32].map pad32 = [d32] by decide,
              buildLevels_low hashStub (by decide)])).2.2⟩

/-- C3 counterexample: the claim that `merkle_proof(tree_of_size_n, n)` and
`merkle_proof(tree, -1)` both fail is false on the code — on the tree built
from the single leaf `d32`, both calls return the empty proof. -/
theorem merkle_proof_unchecked_index_counterexample :
    build_merkle_tree hashStub [d32] = .ok [[d32]] ∧
    merkle_proof [[d32]] (1 : Int) = .ok [] ∧
    merkle_proof [[d32]] (-1 : Int) = .ok [] := by
  refine ⟨?_, rfl, rfl⟩
  rw [build_merkle_tree_ok hashStub [d32] (by decide),
    show [d32].map pad32 = [d32] by decide, buildLevels_low hashStub (by decide)]

/-- C4: Empty input rejected. `build_merkle_tree []` fails with the
empty-input `ValueError` and produces no tree or fallback value. -/
theorem build_merkle_tree_empty (K : Bytes → Bytes) :
    build_merkle_tree K ([] : List Bytes) =
      .error (.valueError "No leaves to build a tree") := rfl

/-- C7: Single-leaf tree. For a 32-byte leaf `A`, the tree is `[[A]]` with
root `A` itself (no hashing round), the proof at index 0 is empty, and
`verify_proof A [] A` accepts. -/
theorem single_leaf_tree (K : Bytes → Bytes) (A : Bytes) (hA : A.length = 32) :
    build_merkle_tree K [A] = .ok [[A]] ∧
    merkle_root [[A]] = some A ∧
    merkle_proof [[A]] (0 : Int) = .ok [] ∧
    verify_proof K A [] A = true := by
  have hpA : pad32 A = A := pad32_of_le (le_of_eq hA.symm)
  refine ⟨?_, rfl, rfl, ?_⟩
  · rw [build_merkle_tree_ok K [A] (by simp),
      show [A].map pad32 = [A] by simp [hpA], buildLevels_low K (by simp)]
  · rw [verify_proof, verifyFold, List.foldl_nil, hpA]
    exact beq_self_eq_true A

/-- C7 witness: the single-leaf properties evaluated at the concrete
32-byte leaf `a32`. -/
theorem single_leaf_tree_witness :
    build_merkle_tree hashStub [a32] = .ok [[a32]] ∧
    merkle_root [[a32]] = some a32 ∧
    merkle_proof [[a32]] (0 : Int) = .ok [] ∧
    verify_proof hashStub a32 [] a32 = true :=
  single_leaf_tree hashStub a32 (by decide)

/-- C8: Tree shape invariant. Every level after level 0 has
`ceil(previous/2) = (previous + 1) / 2` nodes, no level is empty, and the
last level is exactly the singleton holding the `merkle_root` value. -/
theorem tree_shape_invariant (K : Bytes → Bytes) (L : List Bytes) (hL : L ≠ [])
    (tree : List (List Bytes)) (ht : build_merkle_tree K L = .ok tree) :
    (∀ (i : Nat) (l1 l2 : List Bytes), tree.get? i = some l1 →
        tree.get? (i + 1) = some l2 → l2.length = (l1.length + 1) / 2) ∧
    (∀ l ∈ tree, l ≠ []) ∧
    (∃ r, tree.getLast? = some [r] ∧ merkle_root tree = some r) := by
  rw [build_merkle_tree_ok K L hL] at ht
  injection ht with ht
  subst ht
  have hmapne : L.map pad32 ≠ [] := by simpa using hL
  exact ⟨levels_len_chain K (L.map pad32), levels_ne_nil K (L.map pad32) hmapne,
    ⟨rootAux K (L.map pad32), levels_getLast K (L.map pad32) hmapne,
      merkle_root_levels K (L.map pad32) hmapne⟩⟩

/-- C8 witness: the shape invariant evaluated on the concrete two-leaf tree
over `a32, b32`. -/
theorem tree_shape_invariant_witness :
    (∀ (i : Nat) (l1 l2 : List Bytes),
        ([[a32, b32], [hashStub (a32 ++ b32)]] : List (List Bytes)).get? i = some l1 →
        ([[a32, b32], [hashStub (a32 ++ b32)]] : List (List Bytes)).get? (i + 1) =
          some l2 →
        l2.length = (l1.length + 1) / 2) ∧
    (∀ l ∈ ([[a32, b32], [hashStub (a32 ++ b32)]] : List (List Bytes)), l ≠ []) ∧
    (∃ r, ([[a32, b32], [hashStub (a32 ++ b32)]] :
        List (List Bytes)).getLast? = some [r] ∧
      merkle_root [[a32, b32], [hashStub (a32 ++ b32)]] = some r) :=
  tree_shape_invariant hashStub [a32, b32] (by decide) _ (by
    rw [build_merkle_tree_ok hashStub [a32, b32] (by decide),
      show [a32, b32].map pad32 = [a32, b32] by decide,
      buildLevels_high hashStub (by decide),
      show pairUp hashStub [a32, b32] = [hashStub (a32 ++ b32)] from rfl,
      buildLevels_low hashStub (by decide)])

/-- C9 (implicit): no truncation of oversized leaves. `pad32` returns any
byte string longer than 32 bytes unchanged, so `build_merkle_tree` accepts
such leaves without error and level 0 keeps them as they are. -/
theorem pad32_no_truncation (K : Bytes → Bytes) (b : Bytes) (hb : 32 < b.length)
    (L : List Bytes) (hL : L ≠ []) (hall : ∀ x ∈ L, 32 < x.length) :
    pad32 b = b ∧ L.map pad32 = L ∧
    build_merkle_tree K L = .ok (L :: buildLevels K L) := by
  have hmap : L.map pad32 = L := by
    conv_rhs => rw [← List.map_id L]
    exact List.map_congr_left fun x hx => pad32_of_le (le_of_lt (hall x hx))
  refine ⟨pad32_of_le (le_of_lt hb), hmap, ?_⟩
  rw [build_merkle_tree_ok K L hL, hmap]

/-- C9 witness: the 33-byte leaf `b33` is kept as-is by `pad32` and by
tree construction. -/
theorem pad32_no_truncation_witness :
    pad32 b33 = b33 ∧ [b33].map pad32 = [b33] ∧
    build_merkle_tree hashStub [b33] = .ok ([b33] :: buildLevels hashStub [b33]) :=
  pad32_no_truncation hashStub b33 (by decide) [b33] (by decide) (by decide)

/-- C10 (implicit): `verify_proof` is invariant under left-padding the proof
siblings to 32 bytes, and any position string other than `"right"` acts
exactly like `"left"`. -/
theorem verify_proof_pad_and_position (K : Bytes → Bytes) (leaf root : Bytes)
    (proof : List (Bytes × String)) :
    verify_proof K leaf (proof.map fun sp => (pad32 sp.1, sp.2)) root =
      verify_proof K leaf proof root ∧
    verify_proof K leaf
        (proof.map fun sp => (sp.1, if sp.2 == "right" then sp.2 else "left")) root =
      verify_proof K leaf proof root := by
  have h1 : ∀ (pf : List (Bytes × String)) (cur : Bytes),
      verifyFold K (pf.map fun sp => (pad32 sp.1, sp.2)) cur =
        verifyFold K pf cur := by
    intro pf
    induction pf with
    | nil => intro cur; rfl
    | cons p rest ih =>
      intro cur
      simp only [List.map_cons, verifyFold, List.foldl_cons] at ih ⊢
      rw [pad32_idem]
      exact ih _
  have h2 : ∀ (pf : List (Bytes × String)) (cur : Bytes),
      verifyFold K (pf.map fun sp => (sp.1, if sp.2 == "right" then sp.2 else "left"))
          cur = verifyFold K pf cur := by
    intro pf
    induction pf with
    | nil => intro cur; rfl
    | cons p rest ih =>
      intro cur
      simp only [List.map_cons, verifyFold, List.foldl_cons] at ih ⊢
      by_cases hpr : (p.2 == "right") = true
      · simp only [hpr, if_true]
        exact ih _
      · rw [if_neg (by simp [hpr]), if_neg hpr]
        exact ih _
  rw [verify_proof, verify_proof, verify_proof, h1, h2]
  exact ⟨rfl, rfl⟩

theorem build_event_leaf_cons (K : Bytes → Bytes) (txh : Bytes) (li : Int)
    (t0 : Bytes) (ts : List Bytes) (data : Bytes) :
    build_event_leaf K ⟨txh, li, t0 :: ts, data⟩ =
      match int_to_bytes8 li with
      | .error e => .error e
      | .ok ib => .ok (K (txh ++ ib ++ t0 ++ K data)) := rfl

/-- C5: Leaf encoding layout. For a well-formed record (32-byte transaction
hash, log index in `[0, 2^64)`, 32-byte first topic) and a 32-byte-output
hash, `build_event_leaf` hashes exactly the 104-byte buffer
`txHash(32) || logIndex as 8 big-endian bytes || topic0(32) || K(data)(32)`;
the data payload enters only through its hash. -/
theorem build_event_leaf_layout (K : Bytes → Bytes) (hK : ∀ b, (K b).length = 32)
    (log : EventLog) (topic0 : Bytes)
    (htx : log.transactionHash.length = 32)
    (htop0 : log.topics.get? 0 = some topic0) (htoplen : topic0.length = 32)
    (hge : 0 ≤ log.logIndex) (hlt : log.logIndex < (2 : Int) ^ 64) :
    build_event_leaf K log =
      .ok (K (log.transactionHash ++ toBytesBE 8 log.logIndex.toNat ++ topic0 ++
        K log.data)) ∧
    (log.transactionHash ++ toBytesBE 8 log.logIndex.toNat ++ topic0 ++
        K log.data).length = 104 ∧
    (toBytesBE 8 log.logIndex.toNat).length = 8 ∧
    (toBytesBE 8 log.logIndex.toNat).foldl (fun a b => 256 * a + b) 0 =
      log.logIndex.toNat := by
  obtain ⟨txh, li, tps, data⟩ := log
  dsimp only at htx htop0 hge hlt ⊢
  obtain ⟨t0, ts, rfl⟩ : ∃ t0 ts, tps = t0 :: ts := by
    cases tps with
    | nil => simp at htop0
    | cons a l => exact ⟨a, l, rfl⟩
  rw [List.get?_cons_zero] at htop0
  injection htop0 with htop0
  subst htop0
  have hfit : li.toNat < 256 ^ 8 := by
    rw [show (256 : Nat) ^ 8 = 18446744073709551616 by norm_num]
    rw [show ((2 : Int) ^ 64) = 18446744073709551616 by norm_num] at hlt
    omega
  refine ⟨?_, ?_, toBytesBE_length 8 _, toBytesBE_foldl 8 _ hfit⟩
  · rw [build_event_leaf_cons, int_to_bytes8, if_pos ⟨hge, hlt⟩]
  · simp [toBytesBE_length, htx, htoplen, hK]

/-- C5 witness: the layout evaluated on a concrete well-formed record. -/
theorem build_event_leaf_layout_witness :
    build_event_leaf hashStub ⟨a32, 5, [b32], [7, 7, 7]⟩ =
      .ok (hashStub (a32 ++ toBytesBE 8 (5 : Int).toNat ++ b32 ++
        hashStub [7, 7, 7])) ∧
    (a32 ++ toBytesBE 8 (5 : Int).toNat ++ b32 ++ hashStub [7, 7, 7]).length = 104 ∧
    (toBytesBE 8 (5 : Int).toNat).length = 8 ∧
    (toBytesBE 8 (5 : Int).toNat).foldl (fun a b => 256 * a + b) 0 = (5 : Int).toNat :=
  build_event_leaf_layout hashStub hashStub_length ⟨a32, 5, [b32], [7, 7, 7]⟩ b32
    (by decide) rfl (by decide) (by decide) (by decide)

/-- C6 (amended): `build_event_leaf` validates only the log index. Given a
record with a first topic present, the call succeeds exactly when the log
index lies in `[0, 2^64)`, and otherwise fails with the `OverflowError` of
`int.to_bytes`; the lengths of the transaction hash and topic are never
checked, so wrong-length fields are encoded rather than rejected. -/
theorem build_event_leaf_error_characterization (K : Bytes → Bytes)
    (log : EventLog) (htop : log.topics ≠ []) :
    ((∃ v, build_event_leaf K log = .ok v) ↔
      (0 ≤ log.logIndex ∧ log.logIndex < (2 : Int) ^ 64)) ∧
    (¬ (0 ≤ log.logIndex ∧ log.logIndex < (2 : Int) ^ 64) →
      build_event_leaf K log = .error .overflowError) := by
  obtain ⟨txh, li, tps, data⟩ := log
  dsimp only at htop ⊢
  obtain ⟨t0, ts, rfl⟩ := List.exists_cons_of_ne_nil htop
  rw [build_event_leaf_cons, int_to_bytes8]
  by_cases hr : 0 ≤ li ∧ li < (2 : Int) ^ 64
  · rw [if_pos hr]
    exact ⟨⟨fun _ => hr, fun _ => ⟨_, rfl⟩⟩, fun hc => absurd hr hc⟩
  · rw [if_neg hr]
    refine ⟨⟨?_, fun h => absurd h hr⟩, fun _ => rfl⟩
    rintro ⟨v, hv⟩
    exact Except.noConfusion hv

/-- C6 witness: a record with a negative log index (and a topic present)
fails with `OverflowError`, evaluated concretely. -/
theorem build_event_leaf_error_characterization_witness :
    ((∃ v, build_event_leaf hashStub ⟨c32, -1, [a32], []⟩ = .ok v) ↔
      (0 ≤ (-1 : Int) ∧ (-1 : Int) < (2 : Int) ^ 64)) ∧
    (¬ (0 ≤ (-1 : Int) ∧ (-1 : Int) < (2 : Int) ^ 64) →
      build_event_leaf hashStub ⟨c32, -1, [a32], []⟩ = .error .overflowError) :=
  build_event_leaf_error_characterization hashStub ⟨c32, -1, [a32], []⟩ (by decide)

/-- C6 counterexample: a record whose transaction hash is only 31 bytes long
is malformed under the claim, yet `build_event_leaf` encodes it successfully
(into a 103-byte payload) instead of failing with any error. -/
theorem build_event_leaf_malformed_accepted :
    (build_event_leaf hashStub ⟨List.replicate 31 9, 0, [a32], []⟩).isOk = true ∧
    (List.replicate 31 9 ++ toBytesBE 8 (0 : Int).toNat ++ a32 ++
      hashStub []).length = 103 := by
  exact ⟨rfl, by decide⟩

end EventApp
